import Mathlib

/-!
Verification of the MythicMarketMogul aggregation and scoring engine.

The definitions below are a shallow embedding of the JavaScript source
(`src/unnamed/part_000`).  JavaScript numbers are modelled by `ℚ` (the code
only performs field arithmetic on its inputs); a computation whose JavaScript
result would be non-finite (`Infinity`/`NaN`, arising from division by zero)
is modelled by `Option ℚ` with `none` standing for the non-finite result.
Calendar-date keys are the ISO date strings the code uses, compared with the
string order (the code sorts them with the default string comparison).
-/

namespace MythicMarket

/-- Division as JavaScript performs it on finite operands: a zero divisor
yields a non-finite result (`Infinity` or `NaN`), modelled as `none`;
otherwise the exact quotient. -/
def jsdiv (a b : ℚ) : Option ℚ :=
  if b = 0 then none else some (a / b)

/-- One raw per-day market record, as consumed by `aggregateRegionData` and
the analysis functions (fields `date`, `average`, `highest`, `lowest`,
`volume`, `order_count` of the ESI history entries). -/
structure MarketEntry where
  date : String
  average : ℚ
  highest : ℚ
  lowest : ℚ
  volume : ℚ
  order_count : ℚ
deriving DecidableEq, Inhabited

/-! ## Scoring engine (`calculateInvestmentScore`, part_000 lines 1654-1683) -/

/-- Shallow embedding of `calculateInvestmentScore(priceChange, volatility,
momentum)`: base 50, volatility contribution, momentum contribution,
price-change contribution, breakout bonus, final clamp to `[0, 100]`. -/
def calculateInvestmentScore (priceChange volatility momentum : ℚ) : ℚ :=
  let score : ℚ := 50
  let score := if volatility ≥ 20 then score + 30 else score + (volatility / 20) * 30
  let score := score + min (momentum * 3) 30
  let score :=
    if priceChange ≥ 40 then score + 30
    else if priceChange > 0 then score + (priceChange / 40) * 30
    else score
  let score :=
    if momentum > 10 ∧ priceChange > 30 ∧ volatility > 15 then score + 10 else score
  max 0 (min 100 score)

/-- Reference formula written from the specification text (§4.5), before the
final clamp: base 50, plus the volatility, momentum, price-change and bonus
terms as independent summands. -/
def specScoreRaw (priceChange volatility momentum : ℚ) : ℚ :=
  50
    + (if volatility ≥ 20 then 30 else (volatility / 20) * 30)
    + min (momentum * 3) 30
    + (if priceChange ≥ 40 then 30
       else if priceChange > 0 then (priceChange / 40) * 30 else 0)
    + (if momentum > 10 ∧ priceChange > 30 ∧ volatility > 15 then 10 else 0)

/-- Reference score from the specification text: the raw sum clamped to
`[0, 100]`. -/
def specInvestmentScore (priceChange volatility momentum : ℚ) : ℚ :=
  max 0 (min 100 (specScoreRaw priceChange volatility momentum))

/-! ## Statistics engine (part_000 lines 1603-1652 and 1735-1745) -/

/-- Shallow embedding of `calculatePriceChange(history)`: `0` for fewer than
two points, otherwise `((lastPrice - firstPrice) / firstPrice) * 100`.  The
division is the JavaScript one: a zero `firstPrice` makes the result
non-finite (`none`); the source has no guard on this division. -/
def calculatePriceChange (history : List MarketEntry) : Option ℚ :=
  if history.length < 2 then some 0
  else
    let firstPrice := (history.getD 0 default).average
    let lastPrice := (history.getD (history.length - 1) default).average
    (jsdiv (lastPrice - firstPrice) firstPrice).map (· * 100)

/-- Average of the last 30 entries (`recent30Avg` local of
`calculateMomentum`); the length divisor is 30 whenever the 60-point guard
has passed. -/
def recent30Avg (history : List MarketEntry) : ℚ :=
  let recent30 := history.drop (history.length - 30)
  ((recent30.map (·.average)).sum) / (recent30.length : ℚ)

/-- Average of the 30 entries before the last 30 (`previous30Avg` local of
`calculateMomentum`, JavaScript `slice(-60, -30)`). -/
def previous30Avg (history : List MarketEntry) : ℚ :=
  let previous30 := (history.drop (history.length - 60)).take 30
  ((previous30.map (·.average)).sum) / (previous30.length : ℚ)

/-- Shallow embedding of `calculateMomentum(history)`: `0` for fewer than 60
points, otherwise `((recent30Avg - previous30Avg) / previous30Avg) * 100`,
with the final division again unguarded in the source. -/
def calculateMomentum (history : List MarketEntry) : Option ℚ :=
  if history.length < 60 then some 0
  else (jsdiv (recent30Avg history - previous30Avg history) (previous30Avg history)).map (· * 100)

/-- Shallow embedding of the 7-day short-term change computed inside
`analyzeItem`: when at least 7 points exist it compares the last price with
`history[history.length - 7].average`, guarded so that a non-positive
earlier price yields `0`; otherwise `0`. -/
def priceChange7d (history : List MarketEntry) : ℚ :=
  if 7 ≤ history.length then
    let currentPrice := (history.getD (history.length - 1) default).average
    let price7dAgo := (history.getD (history.length - 7) default).average
    if price7dAgo > 0 then ((currentPrice - price7dAgo) / price7dAgo) * 100 else 0
  else 0

/-- Shallow embedding of the 30-day short-term change computed inside
`analyzeItem`, comparing the last price with
`history[history.length - 30].average` under the same guard. -/
def priceChange30d (history : List MarketEntry) : ℚ :=
  if 30 ≤ history.length then
    let currentPrice := (history.getD (history.length - 1) default).average
    let price30dAgo := (history.getD (history.length - 30) default).average
    if price30dAgo > 0 then ((currentPrice - price30dAgo) / price30dAgo) * 100 else 0
  else 0

/-! ## Region aggregator (`aggregateRegionData`, part_000 lines 1545-1594)

The JavaScript function takes `{ regionId: { typeId: [...entries] } }` and
produces `{ typeId: [...merged entries] }`; all grouping is per `typeId`, so
it is embedded here for one fixed item: the input is the list of that item's
regional series in region-iteration order, and the traversal order of
entries is region by region, within a region in series order. -/

/-- Accumulator created per date inside `aggregateRegionData` (the object
with fields `date`, `totalVolume`, `weightedAvgSum`, `highest`, `lowest`,
`orderCount`); `highest` starts at `-Infinity` (`⊥` in `WithBot ℚ`) and
`lowest` at `Infinity` (`⊤` in `WithTop ℚ`). -/
structure DateAgg where
  date : String
  totalVolume : ℚ
  weightedAvgSum : ℚ
  highest : WithBot ℚ
  lowest : WithTop ℚ
  orderCount : ℚ
deriving DecidableEq

/-- Initial accumulator for a date, as built when the date key is first
seen. -/
def initAgg (d : String) : DateAgg :=
  ⟨d, 0, 0, ⊥, ⊤, 0⟩

/-- Folding one entry into a date's accumulator: the five `agg.x += ...` /
`Math.max` / `Math.min` updates of the inner loop. -/
def stepAgg (a : DateAgg) (e : MarketEntry) : DateAgg :=
  { a with
    totalVolume := a.totalVolume + e.volume
    weightedAvgSum := a.weightedAvgSum + e.average * e.volume
    highest := max a.highest (e.highest : WithBot ℚ)
    lowest := min a.lowest (e.lowest : WithTop ℚ)
    orderCount := a.orderCount + e.order_count }

/-- Association-list model of the JavaScript object `byTypeAndDate[typeId]`:
an existing date key is updated in place (object keys keep insertion order),
a new date key is appended at the end. -/
def addEntry : List (String × DateAgg) → MarketEntry → List (String × DateAgg)
  | [], e => [(e.date, stepAgg (initAgg e.date) e)]
  | (d, a) :: m, e =>
      if d = e.date then (d, stepAgg a e) :: m else (d, a) :: addEntry m e

/-- Key lookup in the association-list model of the date map. -/
def assocFind : List (String × DateAgg) → String → Option DateAgg
  | [], _ => none
  | (d, a) :: m, x => if d = x then some a else assocFind m x

/-- Accumulator stored for a date, defaulting to the fresh accumulator when
the date has not been seen (the default branch is never reached for dates
that occur in the map). -/
def getAgg (m : List (String × DateAgg)) (x : String) : DateAgg :=
  (assocFind m x).getD (initAgg x)

/-- Date map built by the two nested loops of `aggregateRegionData` for one
item: every entry of every regional series is folded in, region by region. -/
def buildDateMap (entries : List MarketEntry) : List (String × DateAgg) :=
  entries.foldl addEntry []

/-- One merged output record of `aggregateRegionData`. -/
structure AggPoint where
  date : String
  average : ℚ
  highest : WithBot ℚ
  lowest : WithTop ℚ
  volume : ℚ
  order_count : ℚ
deriving DecidableEq

/-- Conversion of a date accumulator to the flat output record, with the
volume-weighted average and the explicit `0` for a date of zero total
volume. -/
def toPoint (a : DateAgg) : AggPoint :=
  { date := a.date
    average := if a.totalVolume > 0 then a.weightedAvgSum / a.totalVolume else 0
    highest := a.highest
    lowest := a.lowest
    volume := a.totalVolume
    order_count := a.orderCount }

/-- Shallow embedding of `aggregateRegionData` for one item: the input is
that item's regional series in region-iteration order; the date keys of the
accumulated map are sorted with the default string sort and each date is
mapped to its flat merged record. -/
def aggregateRegionData (regions : List (List MarketEntry)) : List AggPoint :=
  let m := buildDateMap regions.flatten
  let dates := List.insertionSort (fun a b : String => a ≤ b) (m.map Prod.fst)
  dates.map (fun d => toPoint (getAgg m d))

/-! ## Incremental sync cache (`main`, part_000 lines 2421-2493)

The per-(region, item) iteration of `main` fetches the pair's history with
conditional headers and then updates the two in-memory snapshots
`historyData` and `etagData`, which are written back to disk at the end of
the run.  The four-way branch on the response is embedded as
`FetchOutcome`; the loop body's effect on the snapshots is `processPair`. -/

/-- Cached conditional-request token for one (region, item) pair: the object
stored in `etagData[regionId][typeId]`, with each header kept only when the
response carried it. -/
structure CacheToken where
  etag : Option String
  lastModified : Option String
deriving DecidableEq

/-- Outcome of one fetch in the refresh loop: HTTP 200 (`replaced`, with the
new series and the response's optional validator headers), HTTP 304
(`notModified`), HTTP 404 (`notFound`), and any other error status or thrown
error (`fetchError`). -/
inductive FetchOutcome where
  | replaced (history : List MarketEntry) (etag : Option String) (lastModified : Option String)
  | notModified
  | notFound
  | fetchError
deriving DecidableEq

/-- The two persisted snapshots, as maps from (regionId, typeId) to the
stored series (`historyData`) and the stored token (`etagData`); `none`
means the pair has no entry. -/
structure SyncState where
  history : ℕ → ℕ → Option (List MarketEntry)
  etags : ℕ → ℕ → Option CacheToken

/-- Effect of one loop iteration of `main` on the snapshots, given the fetch
outcome for pair `(regionId, typeId)`: a 304 and a 404 both `continue`
without touching any state; an error path also leaves the snapshots alone;
a 200 overwrites the pair's series and, when at least one validator header
is present, the pair's token. -/
def processPair (st : SyncState) (regionId typeId : ℕ) : FetchOutcome → SyncState
  | .notModified => st
  | .notFound => st
  | .fetchError => st
  | .replaced h etag lastModified =>
      { history := fun r t =>
          if r = regionId ∧ t = typeId then some h else st.history r t
        etags :=
          if etag.isSome || lastModified.isSome then
            fun r t =>
              if r = regionId ∧ t = typeId then some ⟨etag, lastModified⟩
              else st.etags r t
          else st.etags }

/-! ## Series normalizer (`convertToArray`, part_000 lines 2953-2960) -/

/-- Model of JavaScript `parseInt` on a string key at radix 10: leading
whitespace is skipped, an optional sign is read, then the longest leading
digit run; if no digit is found the result is `NaN`, modelled as `none`. -/
def jsParseInt (s : String) : Option Int :=
  let cs := s.data.dropWhile (fun c => c = ' ' ∨ c = '\t' ∨ c = '\n' ∨ c = '\r')
  let signAndRest : Int × List Char :=
    match cs with
    | '-' :: rest => (-1, rest)
    | '+' :: rest => (1, rest)
    | _ => (1, cs)
  let digits := signAndRest.2.takeWhile (fun c => c.isDigit)
  if digits = [] then none
  else some (signAndRest.1 * (digits.foldl (fun n c => n * 10 + (c.toNat - '0'.toNat)) 0 : ℕ))

/-- One normalized price point of the single-region analyzer: the parsed
timestamp ordinal (with `none` for a `NaN` parse) and the raw price. -/
structure PricePoint where
  timestamp : Option Int
  price : ℚ
deriving DecidableEq

/-- Comparator of the `.sort((a, b) => a.timestamp - b.timestamp)` call as
the ECMAScript sort uses it: for two finite timestamps, `a` may precede `b`
iff `a.timestamp ≤ b.timestamp`; a `NaN` timestamp makes the comparator
value `NaN`, which the sort treats as `0` (the elements compare equal). -/
def sortCompareLe (a b : PricePoint) : Bool :=
  match a.timestamp, b.timestamp with
  | some x, some y => x ≤ y
  | _, _ => true

/-- Shallow embedding of `convertToArray(priceData)`: every `(key, price)`
entry of the object is mapped to a point with `parseInt`-parsed timestamp —
no entry is dropped — and the resulting list is stably sorted with the
timestamp comparator. -/
def convertToArray (m : List (String × ℚ)) : List PricePoint :=
  List.insertionSort (fun a b => sortCompareLe a b = true)
    (m.map fun p => ⟨jsParseInt p.1, p.2⟩)

/-! ## Claim C1: the investment score matches the reference formula -/

/-- C1: the investment score computed by `calculateInvestmentScore` from
(priceChange%, volatility%, momentum%) equals the specification's reference
formula for all inputs: base 50, the volatility term (+30 at ≥ 20, else
proportional), the momentum term `min(momentum × 3, 30)` with no lower
floor, the price-change term (+30 at ≥ 40, proportional for positive,
else 0), the +10 breakout bonus exactly when momentum% > 10 and
priceChange% > 30 and volatility% > 15, then the clamp to [0, 100]; and at
volatility% = 20, momentum% = 0, priceChange% = 40 the raw sum is 110,
clamped to 100. -/
theorem investmentScore_matches_spec :
    (∀ priceChange volatility momentum : ℚ,
        calculateInvestmentScore priceChange volatility momentum =
          specInvestmentScore priceChange volatility momentum)
    ∧ specScoreRaw 40 20 0 = 110
    ∧ calculateInvestmentScore 40 20 0 = 100 := by
  refine ⟨fun p v m => ?_, by norm_num [specScoreRaw], by norm_num [calculateInvestmentScore]⟩
  simp only [calculateInvestmentScore, specInvestmentScore, specScoreRaw]
  split_ifs <;> ring

/-! ## Claim C2: the investment score is always in [0, 100] -/

/-- C2: for every non-negative triple of inputs, the result of
`calculateInvestmentScore` lies in the closed interval [0, 100]. -/
theorem investmentScore_bounded (priceChange volatility momentum : ℚ)
    (hp : 0 ≤ priceChange) (hv : 0 ≤ volatility) (hm : 0 ≤ momentum) :
    0 ≤ calculateInvestmentScore priceChange volatility momentum ∧
      calculateInvestmentScore priceChange volatility momentum ≤ 100 := by
  simp only [calculateInvestmentScore]
  exact ⟨le_max_left _ _, max_le (by norm_num) (min_le_left _ _)⟩

/-- Witness for C2 at the extreme input volatility% = 1000 (with
priceChange% = 40 and momentum% = 5). -/
theorem investmentScore_bounded_witness :
    0 ≤ calculateInvestmentScore 40 1000 5 ∧ calculateInvestmentScore 40 1000 5 ≤ 100 :=
  investmentScore_bounded 40 1000 5 (by norm_num) (by norm_num) (by norm_num)

/-! ## Claim C3: behaviour of the statistics formulas on a zero divisor -/

/-- Sample two-point series whose first price is exactly 0. -/
def zeroFirstSeries : List MarketEntry :=
  [⟨"2024-01-01", 0, 0, 0, 1, 1⟩, ⟨"2024-01-02", 5, 5, 5, 1, 1⟩]

/-- Sample 60-point series of all-zero prices, so the prior-30-point
average divisor of `calculateMomentum` is exactly 0. -/
def zeroSixtySeries : List MarketEntry :=
  List.replicate 60 ⟨"2024-01-01", 0, 0, 0, 1, 1⟩

/-- Counterexample to C3: on a two-point series whose first price is 0,
`calculatePriceChange` performs the division unguarded and its result is
non-finite (`none` in this embedding), not the claimed exact 0. -/
theorem zero_divisor_counterexample :
    calculatePriceChange zeroFirstSeries = none ∧
      (none : Option ℚ) ≠ some 0 := ⟨rfl, by simp⟩

/-- C3 as amended: only the short-horizon deltas guard their divisor (a
non-positive earlier price yields 0); `calculatePriceChange` with a zero
first price and `calculateMomentum` with a zero prior-30-point average
divide unguarded and produce a non-finite value, not 0. -/
theorem zero_divisor_behavior :
    (∀ history : List MarketEntry, 2 ≤ history.length →
        (history.getD 0 default).average = 0 → calculatePriceChange history = none)
    ∧ (∀ history : List MarketEntry, 60 ≤ history.length →
        previous30Avg history = 0 → calculateMomentum history = none)
    ∧ (∀ history : List MarketEntry, 7 ≤ history.length →
        (history.getD (history.length - 7) default).average ≤ 0 →
          priceChange7d history = 0) := by
  refine ⟨fun history hlen hz => ?_, fun history hlen hz => ?_, fun history hlen hz => ?_⟩
  · rw [calculatePriceChange, if_neg (by omega)]
    have hz' : (history[0]?.getD default).average = 0 := by simpa using hz
    simp [jsdiv, hz']
  · rw [calculateMomentum, if_neg (by omega)]
    simp [jsdiv, hz]
  · have hng : ¬ (0 < (history[history.length - 7]?.getD default).average) := by
      simpa using not_lt.mpr hz
    simp [priceChange7d, hlen, hng]

/-- Witness for C3's amended statement on the concrete sample series. -/
theorem zero_divisor_behavior_witness :
    calculatePriceChange zeroFirstSeries = none ∧
      calculateMomentum zeroSixtySeries = none ∧
      priceChange7d (List.replicate 7 (⟨"2024-01-01", 0, 0, 0, 1, 1⟩ : MarketEntry)) = 0 :=
  ⟨zero_divisor_behavior.1 zeroFirstSeries (by norm_num [zeroFirstSeries]) (by rfl),
   zero_divisor_behavior.2.1 zeroSixtySeries (by norm_num [zeroSixtySeries])
     (by simp [previous30Avg, zeroSixtySeries]),
   zero_divisor_behavior.2.2 (List.replicate 7 ⟨"2024-01-01", 0, 0, 0, 1, 1⟩)
     (by norm_num) (by simp)⟩

/-! ## Characterization of the date map built by the aggregator -/

/-- Keys after inserting one entry: every old key is kept and the entry's
date is a key. -/
theorem mem_addEntry_keys (m : List (String × DateAgg)) (e : MarketEntry) (x : String) :
    x ∈ (addEntry m e).map Prod.fst ↔ x ∈ m.map Prod.fst ∨ x = e.date := by
  induction m with
  | nil => simp [addEntry]
  | cons p m ih =>
    obtain ⟨d, a⟩ := p
    by_cases h : d = e.date
    · subst h
      simp [addEntry]
      tauto
    · simp [addEntry, h, ih]
      tauto

/-- Inserting an entry preserves distinctness of the date keys. -/
theorem addEntry_keys_nodup (m : List (String × DateAgg)) (e : MarketEntry)
    (hm : (m.map Prod.fst).Nodup) : ((addEntry m e).map Prod.fst).Nodup := by
  induction m with
  | nil => simp [addEntry]
  | cons p m ih =>
    obtain ⟨d, a⟩ := p
    simp only [List.map_cons, List.nodup_cons] at hm
    by_cases h : d = e.date
    · subst h
      simpa [addEntry] using hm
    · have hstep : addEntry ((d, a) :: m) e = (d, a) :: addEntry m e := by
        simp [addEntry, h]
      rw [hstep, List.map_cons]
      refine List.nodup_cons.mpr ⟨?_, ih hm.2⟩
      rw [mem_addEntry_keys]
      rintro (hmem | rfl)
      · exact hm.1 hmem
      · exact h rfl

/-- Lookup after inserting one entry: the entry's date gets the stepped
accumulator (freshly initialized when the date was absent), every other key
is untouched. -/
theorem assocFind_addEntry (m : List (String × DateAgg)) (e : MarketEntry) (x : String) :
    assocFind (addEntry m e) x =
      if x = e.date then some (stepAgg (getAgg m e.date) e) else assocFind m x := by
  induction m with
  | nil =>
    by_cases h : x = e.date
    · simp [addEntry, assocFind, getAgg, h]
    · simp [addEntry, assocFind, getAgg, h, Ne.symm h]
  | cons p m ih =>
    obtain ⟨d, a⟩ := p
    by_cases hd : d = e.date
    · subst hd
      by_cases hx : x = e.date
      · subst hx
        simp [addEntry, assocFind, getAgg]
      · simp [addEntry, assocFind, hx, Ne.symm hx]
    · have hstep : addEntry ((d, a) :: m) e = (d, a) :: addEntry m e := by
        simp [addEntry, hd]
      rw [hstep]
      by_cases hx : x = d
      · subst hx
        simp [assocFind, hd]
      · simp [assocFind, Ne.symm hx, hx, ih, getAgg, hd]

/-- Keys after folding a list of entries: the old keys together with the
dates occurring in the list. -/
theorem mem_foldl_addEntry_keys (es : List MarketEntry) (m : List (String × DateAgg))
    (x : String) :
    x ∈ ((es.foldl addEntry m).map Prod.fst) ↔
      x ∈ m.map Prod.fst ∨ ∃ e ∈ es, e.date = x := by
  induction es generalizing m with
  | nil => simp
  | cons e es ih =>
    rw [List.foldl_cons, ih, mem_addEntry_keys]
    constructor
    · rintro ((hm | rfl) | ⟨e', he', rfl⟩)
      · exact Or.inl hm
      · exact Or.inr ⟨e, by simp⟩
      · exact Or.inr ⟨e', by simp [he']⟩
    · rintro (hm | ⟨e', he', rfl⟩)
      · exact Or.inl (Or.inl hm)
      · rcases List.mem_cons.mp he' with rfl | he'
        · exact Or.inl (Or.inr rfl)
        · exact Or.inr ⟨e', he', rfl⟩

/-- Folding a list of entries preserves distinctness of the date keys. -/
theorem foldl_addEntry_keys_nodup (es : List MarketEntry) (m : List (String × DateAgg))
    (hm : (m.map Prod.fst).Nodup) : ((es.foldl addEntry m).map Prod.fst).Nodup := by
  induction es generalizing m with
  | nil => exact hm
  | cons e es ih => exact ih _ (addEntry_keys_nodup m e hm)

/-- Accumulator stored for a date after folding a list of entries: the fold
of `stepAgg` over exactly the entries carrying that date, in traversal
order. -/
theorem getAgg_foldl_addEntry (es : List MarketEntry) (m : List (String × DateAgg))
    (x : String) :
    getAgg (es.foldl addEntry m) x =
      (es.filter fun e => e.date = x).foldl stepAgg (getAgg m x) := by
  induction es generalizing m with
  | nil => simp
  | cons e es ih =>
    rw [List.foldl_cons, ih]
    by_cases h : e.date = x
    · subst h
      have h1 : getAgg (addEntry m e) e.date = stepAgg (getAgg m e.date) e := by
        simp [getAgg, assocFind_addEntry]
      rw [h1]
      simp
    · have hx : ¬ x = e.date := fun hxe => h hxe.symm
      have h1 : getAgg (addEntry m e) x = getAgg m x := by
        simp [getAgg, assocFind_addEntry, hx]
      rw [h1]
      simp [h]

/-- The fold of `stepAgg` never changes the accumulator's date. -/
theorem foldl_stepAgg_date (es : List MarketEntry) (a : DateAgg) :
    (es.foldl stepAgg a).date = a.date := by
  induction es generalizing a with
  | nil => rfl
  | cons e es ih => rw [List.foldl_cons, ih]; rfl

/-- Total volume of the fold: the starting volume plus the sum of the
entries' volumes. -/
theorem foldl_stepAgg_totalVolume (es : List MarketEntry) (a : DateAgg) :
    (es.foldl stepAgg a).totalVolume = a.totalVolume + (es.map (·.volume)).sum := by
  induction es generalizing a with
  | nil => simp
  | cons e es ih =>
    rw [List.foldl_cons, ih]
    simp [stepAgg]
    ring

/-- Weighted price sum of the fold: the starting sum plus the sum of
`average × volume` over the entries. -/
theorem foldl_stepAgg_weightedAvgSum (es : List MarketEntry) (a : DateAgg) :
    (es.foldl stepAgg a).weightedAvgSum =
      a.weightedAvgSum + (es.map (fun e => e.average * e.volume)).sum := by
  induction es generalizing a with
  | nil => simp
  | cons e es ih =>
    rw [List.foldl_cons, ih]
    simp [stepAgg]
    ring

/-- Accumulator of the built date map for a date: the fold of `stepAgg` from
the fresh accumulator over the entries carrying that date. -/
theorem getAgg_buildDateMap (es : List MarketEntry) (x : String) :
    getAgg (buildDateMap es) x =
      (es.filter fun e => e.date = x).foldl stepAgg (initAgg x) := by
  rw [buildDateMap, getAgg_foldl_addEntry]
  rfl

/-- Accumulator of the built date map carries its own date. -/
theorem getAgg_buildDateMap_date (es : List MarketEntry) (x : String) :
    (getAgg (buildDateMap es) x).date = x := by
  rw [getAgg_buildDateMap, foldl_stepAgg_date]
  rfl

/-- Dates of the aggregated output: exactly the sorted date keys of the
built date map. -/
theorem aggregateRegionData_map_date (regions : List (List MarketEntry)) :
    (aggregateRegionData regions).map AggPoint.date =
      List.insertionSort (fun a b : String => a ≤ b)
        ((buildDateMap regions.flatten).map Prod.fst) := by
  simp only [aggregateRegionData, List.map_map]
  have : ∀ d ∈ List.insertionSort (fun a b : String => a ≤ b)
      ((buildDateMap regions.flatten).map Prod.fst),
      (AggPoint.date ∘ fun d => toPoint (getAgg (buildDateMap regions.flatten) d)) d = id d := by
    intro d _
    simp [toPoint, getAgg_buildDateMap_date]
  rw [List.map_congr_left this, List.map_id]

/-! ## Claim C4: output dates are the union of input dates, sorted, distinct -/

/-- C4: for every set of per-region input series of one item, the dates of
the aggregated output are exactly the union of the dates appearing in the
input series — none lost, none invented — and the output date list is
strictly ascending (hence sorted with no duplicates) and duplicate-free. -/
theorem aggregate_dates_union_sorted (regions : List (List MarketEntry)) :
    (∀ d : String,
        d ∈ (aggregateRegionData regions).map AggPoint.date ↔
          ∃ s ∈ regions, ∃ e ∈ s, MarketEntry.date e = d)
    ∧ ((aggregateRegionData regions).map AggPoint.date).Sorted (· < ·)
    ∧ ((aggregateRegionData regions).map AggPoint.date).Nodup := by
  rw [aggregateRegionData_map_date]
  have hperm := List.perm_insertionSort (fun a b : String => a ≤ b)
    ((buildDateMap regions.flatten).map Prod.fst)
  have hnodupkeys : ((buildDateMap regions.flatten).map Prod.fst).Nodup :=
    foldl_addEntry_keys_nodup _ _ (by simp)
  have hnodup : (List.insertionSort (fun a b : String => a ≤ b)
      ((buildDateMap regions.flatten).map Prod.fst)).Nodup :=
    hperm.nodup_iff.mpr hnodupkeys
  refine ⟨fun d => ?_, ?_, hnodup⟩
  · rw [hperm.mem_iff, buildDateMap, mem_foldl_addEntry_keys]
    simp only [List.map_nil, List.not_mem_nil, false_or]
    constructor
    · rintro ⟨e, he, rfl⟩
      rcases List.mem_flatten.mp he with ⟨s, hs, hes⟩
      exact ⟨s, hs, e, hes, rfl⟩
    · rintro ⟨s, hs, e, hes, rfl⟩
      exact ⟨e, List.mem_flatten.mpr ⟨s, hs, hes⟩, rfl⟩
  · exact (List.sorted_insertionSort _ _).lt_of_le hnodup

/-! ## Claim C5: aggregation is commutative in the input regions -/

/-- Folding two entries into an accumulator in either order gives the same
accumulator: every field is combined with a commutative-associative
operation. -/
theorem stepAgg_right_comm (a : DateAgg) (e₁ e₂ : MarketEntry) :
    stepAgg (stepAgg a e₁) e₂ = stepAgg (stepAgg a e₂) e₁ := by
  simp only [stepAgg, DateAgg.mk.injEq, true_and]
  exact ⟨by ring, by ring, sup_right_comm _ _ _, inf_right_comm _ _ _, by ring⟩

/-- C5: merging the regional series of one item in order [A, B] yields the
same aggregated series — same dates and, per date, the same average,
highest, lowest, volume and order count — as merging in order [B, A]. -/
theorem aggregate_comm (A B : List MarketEntry) :
    aggregateRegionData [A, B] = aggregateRegionData [B, A] := by
  haveI : RightCommutative stepAgg := ⟨stepAgg_right_comm⟩
  have hflatAB : ([A, B] : List (List MarketEntry)).flatten = A ++ B := by simp
  have hflatBA : ([B, A] : List (List MarketEntry)).flatten = B ++ A := by simp
  have hperm : (A ++ B).Perm (B ++ A) := List.perm_append_comm
  have hnodAB : ((buildDateMap (A ++ B)).map Prod.fst).Nodup :=
    foldl_addEntry_keys_nodup _ _ (by simp)
  have hnodBA : ((buildDateMap (B ++ A)).map Prod.fst).Nodup :=
    foldl_addEntry_keys_nodup _ _ (by simp)
  have hkeys : ((buildDateMap (A ++ B)).map Prod.fst).Perm
      ((buildDateMap (B ++ A)).map Prod.fst) := by
    rw [List.perm_ext_iff_of_nodup hnodAB hnodBA]
    intro x
    rw [buildDateMap, mem_foldl_addEntry_keys, buildDateMap, mem_foldl_addEntry_keys]
    constructor
    · rintro (h | ⟨e, he, rfl⟩)
      · simp at h
      · exact Or.inr ⟨e, hperm.mem_iff.mp he, rfl⟩
    · rintro (h | ⟨e, he, rfl⟩)
      · simp at h
      · exact Or.inr ⟨e, hperm.mem_iff.mpr he, rfl⟩
  have hdates : List.insertionSort (fun a b : String => a ≤ b)
        ((buildDateMap (A ++ B)).map Prod.fst) =
      List.insertionSort (fun a b : String => a ≤ b)
        ((buildDateMap (B ++ A)).map Prod.fst) := by
    refine List.eq_of_perm_of_sorted ?_
      (List.sorted_insertionSort _ _) (List.sorted_insertionSort _ _)
    exact ((List.perm_insertionSort _ _).trans hkeys).trans
      (List.perm_insertionSort _ _).symm
  have hval : ∀ d, getAgg (buildDateMap (A ++ B)) d = getAgg (buildDateMap (B ++ A)) d := by
    intro d
    rw [getAgg_buildDateMap, getAgg_buildDateMap]
    exact (hperm.filter _).foldl_eq _
  simp only [aggregateRegionData, hflatAB, hflatBA, hdates]
  exact List.map_congr_left fun d _ => by rw [hval d]

/-! ## Claim C10: the merged average lies between the regional averages -/

/-- C10: for every output point of the aggregation whose contributing input
points all have non-negative volume and whose aggregate volume is strictly
positive, the merged average price lies between any lower bound and any
upper bound of the contributing regional average prices — in particular
between their minimum and their maximum. -/
theorem aggregate_average_between (regions : List (List MarketEntry)) (p : AggPoint)
    (hp : p ∈ aggregateRegionData regions)
    (hvol : ∀ s ∈ regions, ∀ e ∈ s, 0 ≤ e.volume)
    (hpos : 0 < p.volume)
    (mn mx : ℚ)
    (hmn : ∀ s ∈ regions, ∀ e ∈ s, e.date = p.date → mn ≤ e.average)
    (hmx : ∀ s ∈ regions, ∀ e ∈ s, e.date = p.date → e.average ≤ mx) :
    mn ≤ p.average ∧ p.average ≤ mx := by
  simp only [aggregateRegionData, List.mem_map] at hp
  obtain ⟨d, hd, rfl⟩ := hp
  set es := regions.flatten.filter (fun e => decide (e.date = d)) with hes
  have hagg : getAgg (buildDateMap regions.flatten) d = es.foldl stepAgg (initAgg d) :=
    getAgg_buildDateMap _ _
  have hdate : (toPoint (getAgg (buildDateMap regions.flatten) d)).date = d := by
    simp [toPoint, getAgg_buildDateMap_date]
  have hmem : ∀ e ∈ es, (∃ s ∈ regions, e ∈ s) ∧ e.date = d := by
    intro e he
    rw [hes, List.mem_filter] at he
    exact ⟨List.mem_flatten.mp he.1, by simpa using he.2⟩
  have htv : (toPoint (getAgg (buildDateMap regions.flatten) d)).volume =
      (es.map (·.volume)).sum := by
    simp [toPoint, hagg, foldl_stepAgg_totalVolume, initAgg]
  have hws : (getAgg (buildDateMap regions.flatten) d).weightedAvgSum =
      (es.map (fun e => e.average * e.volume)).sum := by
    simp [hagg, foldl_stepAgg_weightedAvgSum, initAgg]
  have htvpos : 0 < (es.map (·.volume)).sum := by rw [← htv]; exact hpos
  have havg : (toPoint (getAgg (buildDateMap regions.flatten) d)).average =
      (es.map (fun e => e.average * e.volume)).sum / (es.map (·.volume)).sum := by
    simp only [toPoint, hws]
    rw [if_pos]
    · rw [hagg, foldl_stepAgg_totalVolume]
      simp [initAgg]
    · rw [hagg, foldl_stepAgg_totalVolume]
      simpa [initAgg] using htvpos
  have hlow : mn * (es.map (·.volume)).sum ≤ (es.map (fun e => e.average * e.volume)).sum := by
    rw [← List.sum_map_mul_left]
    refine List.sum_le_sum fun e he => ?_
    obtain ⟨⟨s, hs, hesmem⟩, hedate⟩ := hmem e he
    have h1 : mn ≤ e.average := hmn s hs e hesmem (hedate.trans hdate.symm)
    exact mul_le_mul_of_nonneg_right h1 (hvol s hs e hesmem)
  have hhigh : (es.map (fun e => e.average * e.volume)).sum ≤ mx * (es.map (·.volume)).sum := by
    rw [← List.sum_map_mul_left]
    refine List.sum_le_sum fun e he => ?_
    obtain ⟨⟨s, hs, hesmem⟩, hedate⟩ := hmem e he
    have h1 : e.average ≤ mx := hmx s hs e hesmem (hedate.trans hdate.symm)
    exact mul_le_mul_of_nonneg_right h1 (hvol s hs e hesmem)
  rw [havg]
  constructor
  · rw [le_div_iff₀ htvpos]
    simpa [mul_comm] using hlow
  · rw [div_le_iff₀ htvpos]
    simpa [mul_comm] using hhigh

/-- Two one-point regional series on the same date used as a concrete
aggregation example. -/
def regionsEx : List (List MarketEntry) :=
  [[⟨"2024-01-01", 100, 100, 100, 10, 1⟩], [⟨"2024-01-01", 110, 110, 110, 20, 2⟩]]

/-- Aggregated point of the concrete example: volume-weighted average
(100·10 + 110·20) / 30 = 320/3. -/
def aggPointEx : AggPoint :=
  ⟨"2024-01-01", 320 / 3, ((110 : ℚ) : WithBot ℚ), ((100 : ℚ) : WithTop ℚ), 30, 3⟩

/-- Evaluation of the aggregator on the concrete example. -/
theorem aggregateRegionData_regionsEx : aggregateRegionData regionsEx = [aggPointEx] := by
  simp [aggregateRegionData, buildDateMap, addEntry, getAgg, assocFind, toPoint,
    initAgg, stepAgg, regionsEx, aggPointEx, List.insertionSort, List.orderedInsert]
  refine ⟨?_, ?_, ?_, by norm_num, by norm_num⟩
  · rw [if_pos (by norm_num : (0:ℚ) < 10 + 20)]
    norm_num
  · exact_mod_cast (by norm_num : (100:ℚ) ≤ 110)
  · exact_mod_cast (by norm_num : (100:ℚ) ≤ 110)

/-- Witness for C10 on the concrete example: the merged average 320/3 lies
between the regional averages 100 and 110. -/
theorem aggregate_average_between_witness :
    100 ≤ aggPointEx.average ∧ aggPointEx.average ≤ 110 :=
  aggregate_average_between regionsEx aggPointEx
    (by rw [aggregateRegionData_regionsEx]; exact List.mem_singleton_self _)
    (by norm_num [regionsEx])
    (by norm_num [aggPointEx])
    100 110
    (by norm_num [regionsEx])
    (by norm_num [regionsEx])

/-! ## Claim C6: effect of an ABSENT (HTTP 404) outcome on the snapshot -/

/-- Prior stored series of the sample pair used in the C6 counterexample. -/
def priorSeriesEx : List MarketEntry :=
  [⟨"2024-01-01", 5, 6, 4, 3, 2⟩]

/-- Snapshot state that already holds an entry for pair (0, 0). -/
def stWithEntry : SyncState :=
  { history := fun r t => if r = 0 ∧ t = 0 then some priorSeriesEx else none
    etags := fun _ _ => none }

/-- Counterexample to C6: a pair whose refresh returns 404 keeps its prior
snapshot entry — the loop body just skips the pair — so the updated snapshot
still contains the old series, while the claim says it must contain no
entry. -/
theorem absent_keeps_prior_entry :
    (processPair stWithEntry 0 0 .notFound).history 0 0 = some priorSeriesEx ∧
      some priorSeriesEx ≠ (none : Option (List MarketEntry)) :=
  ⟨rfl, by simp⟩

/-- C6 as amended: an ABSENT (404) outcome leaves the persisted snapshot
entirely unchanged — no entry is created for a pair that had none, and a
prior entry for the pair is retained rather than removed. -/
theorem absent_leaves_snapshot_unchanged (st : SyncState) (regionId typeId : ℕ) :
    processPair st regionId typeId .notFound = st :=
  rfl

/-! ## Claim C7: an UNCHANGED (HTTP 304) outcome touches nothing -/

/-- C7: for a pair with a cached token whose refresh reports 304, the stored
series for the pair is identical to before the run, the stored token is
identical, and in fact the whole snapshot state is untouched. -/
theorem unchanged_preserves_state (st : SyncState) (regionId typeId : ℕ)
    (tok : CacheToken) (hcached : st.etags regionId typeId = some tok) :
    (processPair st regionId typeId .notModified).history regionId typeId =
        st.history regionId typeId ∧
      (processPair st regionId typeId .notModified).etags regionId typeId = some tok ∧
      processPair st regionId typeId .notModified = st :=
  ⟨rfl, hcached, rfl⟩

/-- Snapshot state with a cached token for pair (0, 0), for the C7
witness. -/
def stWithToken : SyncState :=
  { history := fun r t => if r = 0 ∧ t = 0 then some priorSeriesEx else none
    etags := fun r t => if r = 0 ∧ t = 0 then some ⟨some "W", some "Mon"⟩ else none }

/-- Witness for C7 at the concrete cached state. -/
theorem unchanged_preserves_state_witness :
    (processPair stWithToken 0 0 .notModified).history 0 0 = stWithToken.history 0 0 ∧
      (processPair stWithToken 0 0 .notModified).etags 0 0 =
        some ⟨some "W", some "Mon"⟩ ∧
      processPair stWithToken 0 0 .notModified = stWithToken :=
  unchanged_preserves_state stWithToken 0 0 ⟨some "W", some "Mon"⟩ (by simp [stWithToken])

/-! ## Claim C8: the short-horizon deltas and their exact offsets -/

/-- Eight-point series on which the 7-point-earlier reading and the actual
`history[length - 7]` reading disagree: prices 100, 200, 1, 1, 1, 1, 1,
300. -/
def series8Ex : List MarketEntry :=
  [⟨"2024-01-01", 100, 100, 100, 1, 1⟩, ⟨"2024-01-02", 200, 200, 200, 1, 1⟩,
   ⟨"2024-01-03", 1, 1, 1, 1, 1⟩, ⟨"2024-01-04", 1, 1, 1, 1, 1⟩,
   ⟨"2024-01-05", 1, 1, 1, 1, 1⟩, ⟨"2024-01-06", 1, 1, 1, 1, 1⟩,
   ⟨"2024-01-07", 1, 1, 1, 1, 1⟩, ⟨"2024-01-08", 300, 300, 300, 1, 1⟩]

/-- Counterexample to C8: on the eight-point series, the price exactly 7
points earlier than the last is the first one (100), so the claimed formula
gives ((300 − 100) / 100) × 100 = 200; the code reads
`history[length − 7]` = 200 instead and returns 50. -/
theorem priceChange7d_offset_counterexample :
    priceChange7d series8Ex = 50 ∧
      ((300 - 100) / 100) * (100 : ℚ) = 200 ∧
      (50 : ℚ) ≠ 200 := by
  refine ⟨?_, by norm_num, by norm_num⟩
  norm_num [priceChange7d, series8Ex]

/-- C8 as amended: `priceChange7d` compares the last price with the price at
position `length − 7` — the 7th point counting from the end, i.e. exactly 6
positions earlier than the last — and `priceChange30d` with position
`length − 30`, exactly 29 positions earlier; each is 0 when the series is
shorter than 7 (resp. 30) points, and 0 when that earlier price is not
positive (covered by claim C3's part). -/
theorem shortTermChange_offsets :
    (∀ history : List MarketEntry, 7 ≤ history.length →
        priceChange7d history =
          (let current := (history.getD (history.length - 1) default).average
           let earlier := (history.reverse.getD 6 default).average
           if earlier > 0 then ((current - earlier) / earlier) * 100 else 0))
    ∧ (∀ history : List MarketEntry, history.length < 7 → priceChange7d history = 0)
    ∧ (∀ history : List MarketEntry, 30 ≤ history.length →
        priceChange30d history =
          (let current := (history.getD (history.length - 1) default).average
           let earlier := (history.reverse.getD 29 default).average
           if earlier > 0 then ((current - earlier) / earlier) * 100 else 0))
    ∧ (∀ history : List MarketEntry, history.length < 30 → priceChange30d history = 0) := by
  have hrev : ∀ (history : List MarketEntry) (k : ℕ), k + 1 ≤ history.length →
      history.reverse.getD k default = history.getD (history.length - 1 - k) default := by
    intro history k hk
    have h1 : k < history.reverse.length := by simpa using hk
    have h2 : history.length - 1 - k < history.length := by omega
    rw [List.getD_eq_getElem _ _ h1, List.getD_eq_getElem _ _ h2, List.getElem_reverse]
  refine ⟨fun history h7 => ?_, fun history h7 => ?_,
    fun history h30 => ?_, fun history h30 => ?_⟩
  · rw [priceChange7d, if_pos h7, hrev history 6 (by omega)]
    have : history.length - 1 - 6 = history.length - 7 := by omega
    rw [this]
  · rw [priceChange7d, if_neg (by omega)]
  · rw [priceChange30d, if_pos h30, hrev history 29 (by omega)]
    have : history.length - 1 - 29 = history.length - 30 := by omega
    rw [this]
  · rw [priceChange30d, if_neg (by omega)]

/-- Witness for C8's amended statement: on the eight-point series the code
and the position-(length − 7) formula agree (both 50), and a short series
yields 0. -/
theorem shortTermChange_offsets_witness :
    priceChange7d series8Ex =
        (let current := (series8Ex.getD (series8Ex.length - 1) default).average
         let earlier := (series8Ex.reverse.getD 6 default).average
         if earlier > 0 then ((current - earlier) / earlier) * 100 else 0) ∧
      priceChange30d series8Ex = 0 :=
  ⟨shortTermChange_offsets.1 series8Ex (by norm_num [series8Ex]),
   shortTermChange_offsets.2.2.2 series8Ex (by norm_num [series8Ex])⟩

/-! ## Claim C9: the series normalizer and malformed keys -/

/-- Parsed ordinal of a point, with `NaN` read as 0; on points whose key
parsed successfully this is exactly the parsed ordinal. -/
def keyD (p : PricePoint) : Int :=
  p.timestamp.getD 0

/-- On points with finite timestamps the sort comparator coincides with the
ordinal comparison. -/
theorem orderedInsert_sortCompare_eq (a : PricePoint) (l : List PricePoint)
    (ha : a.timestamp.isSome = true) (hl : ∀ p ∈ l, p.timestamp.isSome = true) :
    List.orderedInsert (fun x y => sortCompareLe x y = true) a l =
      List.orderedInsert (fun x y => keyD x ≤ keyD y) a l := by
  induction l with
  | nil => rfl
  | cons b l ih =>
    have hb : b.timestamp.isSome = true := hl b (by simp)
    have hcond : (sortCompareLe a b = true) ↔ (keyD a ≤ keyD b) := by
      obtain ⟨x, hx⟩ := Option.isSome_iff_exists.mp ha
      obtain ⟨y, hy⟩ := Option.isSome_iff_exists.mp hb
      simp [sortCompareLe, keyD, hx, hy]
    rw [List.orderedInsert, List.orderedInsert]
    by_cases h : keyD a ≤ keyD b
    · rw [if_pos (hcond.mpr h), if_pos h]
    · rw [if_neg (fun hh => h (hcond.mp hh)), if_neg h,
        ih (fun p hp => hl p (by simp [hp]))]

/-- On a list of points with finite timestamps the stable sort with the
JavaScript comparator is the stable sort by ordinal. -/
theorem insertionSort_sortCompare_eq (l : List PricePoint)
    (hl : ∀ p ∈ l, p.timestamp.isSome = true) :
    List.insertionSort (fun x y => sortCompareLe x y = true) l =
      List.insertionSort (fun x y => keyD x ≤ keyD y) l := by
  induction l with
  | nil => rfl
  | cons a l ih =>
    have hl' : ∀ p ∈ l, p.timestamp.isSome = true := fun p hp => hl p (by simp [hp])
    rw [List.insertionSort, List.insertionSort, ih hl']
    refine orderedInsert_sortCompare_eq a _ (hl a (by simp)) fun p hp => ?_
    exact hl' p ((List.perm_insertionSort _ l).mem_iff.mp hp)

/-- Counterexample to C9: an entry whose key does not parse is not dropped —
`convertToArray` keeps it, with a `NaN` (`none`) timestamp, so the output
for a single malformed entry is that entry rather than the empty list the
claim requires. -/
theorem convertToArray_keeps_malformed :
    convertToArray [("notADate", 5)] = [⟨none, 5⟩] ∧
      (⟨none, (5 : ℚ)⟩ : PricePoint) ∈ convertToArray [("notADate", 5)] ∧
      convertToArray [("notADate", 5)] ≠ [] :=
  ⟨rfl, by rw [(by rfl : convertToArray [("notADate", 5)] = [⟨none, 5⟩])]; simp,
    by rw [(by rfl : convertToArray [("notADate", 5)] = [⟨none, 5⟩])]; simp⟩

/-- C9 as amended: `convertToArray` never fails and keeps every entry — its
output is a permutation of the input entries mapped through the
`parseInt`-based conversion, so well-formed and malformed entries alike
appear exactly once (a malformed key yields a `NaN` ordinal rather than
being dropped); and when every key parses, the output is sorted ascending
by the parsed ordinal. -/
theorem convertToArray_spec :
    (∀ m : List (String × ℚ),
        (convertToArray m).Perm (m.map fun p => (⟨jsParseInt p.1, p.2⟩ : PricePoint)))
    ∧ (∀ m : List (String × ℚ), (∀ p ∈ m, (jsParseInt p.1).isSome = true) →
        ((convertToArray m).map (fun q => q.timestamp.getD 0)).Sorted (· ≤ ·)) := by
  constructor
  · intro m
    exact List.perm_insertionSort _ _
  · intro m hm
    have hall : ∀ p ∈ (m.map fun p => (⟨jsParseInt p.1, p.2⟩ : PricePoint)),
        p.timestamp.isSome = true := by
      intro p hp
      obtain ⟨q, hq, rfl⟩ := List.mem_map.mp hp
      exact hm q hq
    rw [convertToArray, insertionSort_sortCompare_eq _ hall]
    haveI : IsTotal PricePoint (fun x y => keyD x ≤ keyD y) := ⟨fun a b => le_total _ _⟩
    haveI : IsTrans PricePoint (fun x y => keyD x ≤ keyD y) :=
      ⟨fun a b c hab hbc => le_trans hab hbc⟩
    have hsorted := List.sorted_insertionSort (fun x y => keyD x ≤ keyD y)
      (m.map fun p => (⟨jsParseInt p.1, p.2⟩ : PricePoint))
    exact List.pairwise_map.mpr hsorted

/-- Witness for C9's amended statement at a concrete two-entry mapping whose
keys both parse. -/
theorem convertToArray_spec_witness :
    (convertToArray [("20", 1), ("3", 2)]).Perm
        ([("20", (1 : ℚ)), ("3", 2)].map fun p => (⟨jsParseInt p.1, p.2⟩ : PricePoint)) ∧
      ((convertToArray [("20", 1), ("3", 2)]).map
          (fun q => q.timestamp.getD 0)).Sorted (· ≤ ·) :=
  ⟨convertToArray_spec.1 [("20", 1), ("3", 2)],
   convertToArray_spec.2 [("20", 1), ("3", 2)] (by decide)⟩

end MythicMarket
